import Mathlib

/-!
Verification of the agent-brain hybrid retrieval core.

This file gives a shallow embedding of the parts of the repository that the
specification's claims are about:

* the Reciprocal Rank Fusion helper `_rrf_fuse`
  (tests/contract/test_hybrid_search_contract.py),
* the `FolderManager` service with JSONL persistence
  (agent_brain_server/services/folder_manager.py),
* the folder-deletion endpoint `remove_folder`
  (agent_brain_server/api/routers/folders.py),
* the Ollama reranker provider
  (agent_brain_server/providers/reranker/ollama.py),
* the query-service reranking stage (modelled from the spec; its module is
  not part of the sources, only its unit tests are).

Python floats are modelled as exact rationals (ℚ); all quantities involved in
the claims are small exact dyadic/unit fractions for which float and rational
arithmetic agree on every comparison used.  Python dicts are modelled as
insertion-ordered association lists with the update-in-place/append-at-end
semantics of CPython.  Python's stable `sorted` is modelled by Mathlib's
stable `List.insertionSort`.
-/

/-! ## Python dict model: insertion-ordered association lists -/

/-- `d.get(k)`: first value bound to `k`, if any.  (Keys are unique in every
list built by `pyInsert` from `[]`, mirroring a real dict.) -/
def pyGet {β : Type _} : List (String × β) → String → Option β
  | [], _ => none
  | p :: rest, k => if p.1 = k then some p.2 else pyGet rest k

/-- `d.get(k, dflt)`. -/
def pyGetD {β : Type _} (m : List (String × β)) (k : String) (dflt : β) : β :=
  (pyGet m k).getD dflt

/-- `k in d`. -/
def pyContains {β : Type _} : List (String × β) → String → Bool
  | [], _ => false
  | p :: rest, k => p.1 = k || pyContains rest k

/-- Replace every binding of `k` by `v`, keeping its position. -/
def pyReplace {β : Type _} : List (String × β) → String → β → List (String × β)
  | [], _, _ => []
  | p :: rest, k, v =>
    if p.1 = k then (k, v) :: pyReplace rest k v else p :: pyReplace rest k v

/-- `d[k] = v`: CPython dicts update an existing key in place and append a
new key at the end of the iteration order. -/
def pyInsert {β : Type _} (m : List (String × β)) (k : String) (v : β) :
    List (String × β) :=
  if pyContains m k then pyReplace m k v else m ++ [(k, v)]

/-- `d.pop(k)`: drop the binding of `k`. -/
def pyRemove {β : Type _} : List (String × β) → String → List (String × β)
  | [], _ => []
  | p :: rest, k => if p.1 = k then pyRemove rest k else p :: pyRemove rest k

/-- Keys of the dict, in iteration order. -/
def pyKeys {β : Type _} (m : List (String × β)) : List String :=
  m.map Prod.fst

/-! ## Rank fusion (`_rrf_fuse` from tests/contract/test_hybrid_search_contract.py) -/

/-- `SearchResult` from `agent_brain_server.storage.protocol`, with the fields
`_rrf_fuse` uses.  `score` is ℚ for Python's float. -/
structure SearchResult where
  text : String
  metadata : List (String × String)
  score : ℚ
  chunk_id : String
deriving Repr, DecidableEq

def defaultSearchResult : SearchResult :=
  { text := "", metadata := [], score := 0, chunk_id := "" }

/-- One `for rank, result in enumerate(results)` accumulation pass:
`rrf_scores[id] = rrf_scores.get(id, 0.0) + weight / (rank + rrf_k)`. -/
def rrfAccum (weight rrf_k : ℚ) : ℕ → List SearchResult →
    List (String × ℚ) → List (String × ℚ)
  | _, [], m => m
  | rank, r :: rest, m =>
      rrfAccum weight rrf_k (rank + 1) rest
        (pyInsert m r.chunk_id
          (pyGetD m r.chunk_id 0 + weight / ((rank : ℚ) + rrf_k)))

/-- The accumulated `rrf_scores` dict: vector pass then keyword pass, both
starting at rank 0. -/
def fuseScores (vector_results keyword_results : List SearchResult)
    (vector_weight keyword_weight rrf_k : ℚ) : List (String × ℚ) :=
  rrfAccum keyword_weight rrf_k 0 keyword_results
    (rrfAccum vector_weight rrf_k 0 vector_results [])

/-- Vector pass over `result_map`: `result_map[result.chunk_id] = result`. -/
def vectorMapFold : List SearchResult → List (String × SearchResult) →
    List (String × SearchResult)
  | [], m => m
  | r :: rest, m => vectorMapFold rest (pyInsert m r.chunk_id r)

/-- Keyword pass over `result_map`:
`if result.chunk_id not in result_map: result_map[result.chunk_id] = result`. -/
def keywordMapFold : List SearchResult → List (String × SearchResult) →
    List (String × SearchResult)
  | [], m => m
  | r :: rest, m =>
      keywordMapFold rest
        (if pyContains m r.chunk_id then m else pyInsert m r.chunk_id r)

def buildResultMap (vector_results keyword_results : List SearchResult) :
    List (String × SearchResult) :=
  keywordMapFold keyword_results (vectorMapFold vector_results [])

/-- `max(rrf_scores.values())` over a non-empty dict (0 on the empty dict,
which `_rrf_fuse` never reaches). -/
def dictMax : List (String × ℚ) → ℚ
  | [] => 0
  | p :: rest => rest.foldl (fun acc q => max acc q.2) p.2

/-- Descending order on the score component; `sorted(..., reverse=True)` is
the stable sort by this relation. -/
def sndGe {α : Type _} (a b : α × ℚ) : Prop := b.2 ≤ a.2

instance {α : Type _} : DecidableRel (α := α × ℚ) sndGe :=
  fun a b => inferInstanceAs (Decidable (b.2 ≤ a.2))

instance {α : Type _} : IsTotal (α × ℚ) sndGe :=
  ⟨fun a b => le_total b.2 a.2⟩

instance {α : Type _} : IsTrans (α × ℚ) sndGe :=
  ⟨fun _ _ _ h1 h2 => le_trans h2 h1⟩

/-- `_rrf_fuse` from tests/contract/test_hybrid_search_contract.py.
The source's defaults are `vector_weight=0.5, keyword_weight=0.5, rrf_k=60`;
here they are always passed explicitly. -/
def rrf_fuse (vector_results keyword_results : List SearchResult)
    (top_k : ℕ) (vector_weight keyword_weight rrf_k : ℚ) : List SearchResult :=
  let rrf_scores :=
    fuseScores vector_results keyword_results vector_weight keyword_weight rrf_k
  let result_map := buildResultMap vector_results keyword_results
  if rrf_scores = [] then []
  else
    let sorted_entries := (List.insertionSort sndGe rrf_scores).take top_k
    let max_rrf := if dictMax rrf_scores = 0 then 1 else dictMax rrf_scores
    sorted_entries.map (fun p =>
      { text := (pyGetD result_map p.1 defaultSearchResult).text
        metadata := (pyGetD result_map p.1 defaultSearchResult).metadata
        score := p.2 / max_rrf
        chunk_id := p.1 })

/-! ## FolderManager (agent_brain_server/services/folder_manager.py) -/

/-- `FolderRecord` dataclass.  `chunk_count` is `Int` for Python's unchecked
`int`; Python does not validate any field value. -/
structure FolderRecord where
  folder_path : String
  chunk_count : Int
  last_indexed : String
  chunk_ids : List String
deriving Repr, DecidableEq

/-- Structural JSON values, enough for the registry's records.  Numbers are
integers (the registry never writes floats). -/
inductive Json where
  | null
  | bool (b : Bool)
  | num (n : Int)
  | str (s : String)
  | arr (xs : List Json)
  | obj (fields : List (String × Json))
deriving Repr

/-- One line of the persisted JSONL file, as seen by `json.loads`: an empty
line, a line that raises `JSONDecodeError`, or a parsed value. -/
inductive JsonLine where
  | blank
  | malformed
  | valid (v : Json)
deriving Repr

/-- `data[k]` on a parsed JSON object (duplicate keys never occur in lines the
registry itself writes). -/
def jsonLookup (fields : List (String × Json)) (k : String) : Option Json :=
  pyGet fields k

def asStr : Json → Option String
  | .str s => some s
  | _ => none

def asInt : Json → Option Int
  | .num n => some n
  | _ => none

def strListOfJson : List Json → Option (List String)
  | [] => some []
  | .str s :: rest => (strListOfJson rest).map (fun l => s :: l)
  | _ :: _ => none

def asStrList : Json → Option (List String)
  | .arr xs => strListOfJson xs
  | _ => none

/-- Building a `FolderRecord` from one parsed line: a missing key is Python's
`KeyError`, a non-object is its `TypeError`; both are caught and yield `none`
(the line is skipped).  The model additionally requires each field to have its
declared type, which holds for every line the registry itself writes. -/
def recordOfJson : Json → Option FolderRecord
  | .obj fields =>
      (jsonLookup fields "folder_path").bind fun jp =>
      (asStr jp).bind fun p =>
      (jsonLookup fields "chunk_count").bind fun jn =>
      (asInt jn).bind fun n =>
      (jsonLookup fields "last_indexed").bind fun jt =>
      (asStr jt).bind fun t =>
      (jsonLookup fields "chunk_ids").bind fun ji =>
      (asStrList ji).map fun ids =>
        { folder_path := p, chunk_count := n, last_indexed := t,
          chunk_ids := ids }
  | _ => none

/-- `FolderManager._load_jsonl`: fold over the lines, skipping blank and
corrupt ones, keying each good record by its `folder_path`. -/
def load_jsonl (lines : List JsonLine) : List (String × FolderRecord) :=
  lines.foldl
    (fun records line =>
      match line with
      | .blank => records
      | .malformed => records
      | .valid v =>
          match recordOfJson v with
          | none => records
          | some r => pyInsert records r.folder_path r)
    []

/-- `json.dumps(asdict(record))`, structurally. -/
def jsonOfRecord (r : FolderRecord) : Json :=
  .obj [("folder_path", .str r.folder_path),
        ("chunk_count", .num r.chunk_count),
        ("last_indexed", .str r.last_indexed),
        ("chunk_ids", .arr (r.chunk_ids.map .str))]

/-- `FolderManager._write_jsonl`: one line per cached record, in cache
(insertion) order.  The temp-file-then-rename step is atomic, so the file
contents after a mutation are exactly these lines. -/
def write_jsonl (cache : List (String × FolderRecord)) : List JsonLine :=
  cache.map (fun p => .valid (jsonOfRecord p.2))

/-- `FolderManager.add_folder`.  `resolve` abstracts `str(Path(x).resolve())`
and `now` the `datetime.now(timezone.utc).isoformat()` timestamp.  Returns the
new record and the updated cache; the persisted file is `write_jsonl` of that
cache. -/
def add_folder (resolve : String → String) (now : String)
    (cache : List (String × FolderRecord)) (folder_path : String)
    (chunk_count : Int) (chunk_ids : List String) :
    FolderRecord × List (String × FolderRecord) :=
  let normalized := resolve folder_path
  let record : FolderRecord :=
    { folder_path := normalized, chunk_count := chunk_count,
      last_indexed := now, chunk_ids := chunk_ids }
  (record, pyInsert cache normalized record)

/-- `FolderManager.get_folder`. -/
def get_folder (resolve : String → String)
    (cache : List (String × FolderRecord)) (folder_path : String) :
    Option FolderRecord :=
  pyGet cache (resolve folder_path)

/-- `FolderManager.remove_folder`: returns the popped record (or `none`), the
resulting cache, and whether `_persist` ran (it runs only when a record was
actually removed). -/
def remove_folder (resolve : String → String)
    (cache : List (String × FolderRecord)) (folder_path : String) :
    Option FolderRecord × List (String × FolderRecord) × Bool :=
  let normalized := resolve folder_path
  match pyGet cache normalized with
  | none => (none, cache, false)
  | some r => (some r, pyRemove cache normalized, true)

/-- Python's `<=` on `str`: lexicographic by code point. -/
def lexLe : List Char → List Char → Bool
  | [], _ => true
  | _ :: _, [] => false
  | c :: cs, d :: ds => if c = d then lexLe cs ds else decide (c < d)

/-- Stable insertion preserving earlier-before-later on ties (the insertion
point is before the first element NOT `le`-below the new one only when the
new one is strictly preferred), matching Python's stable `sorted`. -/
def insertLe {α : Type _} (le : α → α → Bool) (x : α) : List α → List α
  | [] => [x]
  | y :: ys => if le x y then x :: y :: ys else y :: insertLe le x ys

/-- Stable insertion sort by a boolean comparison. -/
def sortLe {α : Type _} (le : α → α → Bool) : List α → List α
  | [] => []
  | x :: xs => insertLe le x (sortLe le xs)

/-- `FolderManager.list_folders`: cached records sorted ascending by
`folder_path`. -/
def list_folders (cache : List (String × FolderRecord)) : List FolderRecord :=
  sortLe (fun a b => lexLe a.folder_path.data b.folder_path.data)
    (cache.map Prod.snd)

/-- Well-formedness that `FolderManager` maintains: the cache keys are unique
and each record is keyed by its own `folder_path`. -/
def CacheWF (cache : List (String × FolderRecord)) : Prop :=
  (pyKeys cache).Nodup ∧ ∀ q ∈ cache, q.2.folder_path = q.1

/-! ## Folder deletion endpoint (agent_brain_server/api/routers/folders.py) -/

/-- A call made to the storage backend during deletion. -/
inductive StorageCall where
  | deleteByIds (ids : List String)
  | deleteByMetadata (source : String)
deriving Repr, DecidableEq

/-- The endpoint's observable HTTP-level outcome. -/
inductive DeleteOutcome where
  | conflict (path : String)
  | notFound (path : String)
  | internalError (path : String)
  | ok (path : String) (chunks_deleted : Int)
deriving Repr, DecidableEq

/-- The world `remove_folder` (the DELETE /folders handler) reads:
the job queue stats, the running job's folder path, the `FolderManager` cache,
and the storage backend's responses (an `Except` error is a raised storage
exception). -/
structure DeleteEnv where
  resolve : String → String
  running : ℕ
  runningJobPath : Option String
  cache : List (String × FolderRecord)
  deleteByIdsResult : List String → Except String Int
  deleteByMetadataResult : String → Except String Int

/-- The `remove_folder` endpoint: conflict check (only when `stats.running >
0`), registry lookup, chunk deletion by ids or by metadata, then registry
update.  Returns the outcome, the storage calls made, and the cache after. -/
def remove_folder_endpoint (env : DeleteEnv) (folder_path : String) :
    DeleteOutcome × List StorageCall × List (String × FolderRecord) :=
  let normalized := env.resolve folder_path
  let conflicted : Bool :=
    if 0 < env.running then
      match env.runningJobPath with
      | some jp => decide (env.resolve jp = normalized)
      | none => false
    else false
  if conflicted then (.conflict normalized, [], env.cache)
  else
    match pyGet env.cache normalized with
    | none => (.notFound normalized, [], env.cache)
    | some record =>
        if record.chunk_ids.isEmpty then
          match env.deleteByMetadataResult normalized with
          | .error _ =>
              (.internalError normalized, [.deleteByMetadata normalized],
               env.cache)
          | .ok n =>
              (.ok normalized n, [.deleteByMetadata normalized],
               (remove_folder env.resolve env.cache normalized).2.1)
        else
          match env.deleteByIdsResult record.chunk_ids with
          | .error _ =>
              (.internalError normalized, [.deleteByIds record.chunk_ids],
               env.cache)
          | .ok n =>
              (.ok normalized n, [.deleteByIds record.chunk_ids],
               (remove_folder env.resolve env.cache normalized).2.1)

/-! ## Query-service reranking stage -/

/-- `QueryResult` from `agent_brain_server.models`, with the fields the
reranking stage reads and writes. -/
structure QueryResult where
  text : String
  source : String
  score : ℚ
  vector_score : Option ℚ
  bm25_score : Option ℚ
  chunk_id : String
  rerank_score : Option ℚ
  original_rank : Option ℕ
deriving Repr, DecidableEq

/-- How the reranker provider behaves on one call: acquisition throws,
`is_available()` is false, `rerank(...)` throws, or it returns
`(original_index, relevance_score)` pairs. -/
inductive RerankerOutcome where
  | acquisitionError
  | unavailable
  | scoringError
  | success (pairs : List (ℕ × ℚ))

def RerankerOutcome.isFailure : RerankerOutcome → Bool
  | .acquisitionError => true
  | .unavailable => true
  | .scoringError => true
  | .success _ => false

/-- Modelled from the spec: `QueryService._rerank_results`
(agent_brain_server/services/query_service.py is not among the sources; only
its unit tests are).  Per spec section 4.3: empty input returns empty with no
provider call; provider-acquisition failure, unavailability, or a scoring
exception falls back to the first `top_k` inputs untouched; on success each
returned pair `(i, s)` yields the input at index `i` with `rerank_score := s`
and `original_rank := i + 1`, all other fields preserved, in provider order,
truncated to `top_k`. -/
def rerank_results (results : List QueryResult) (outcome : RerankerOutcome)
    (top_k : ℕ) : List QueryResult :=
  if results.isEmpty then []
  else
    match outcome with
    | .acquisitionError => results.take top_k
    | .unavailable => results.take top_k
    | .scoringError => results.take top_k
    | .success pairs =>
        (pairs.take top_k).filterMap (fun pr =>
          (results[pr.1]?).map (fun orig =>
            { orig with
                rerank_score := some pr.2
                original_rank := some (pr.1 + 1) }))

/-! ## Ollama reranker provider (agent_brain_server/providers/reranker/ollama.py) -/

/-- What one `/api/chat` call produces for a document: a raised
`httpx.HTTPError`/exception, or the response's `message.content`. -/
inductive OllamaResponse where
  | failure
  | content (s : String)

def natOfDigits (ds : List Char) : ℕ :=
  ds.foldl (fun n c => 10 * n + (c.toNat - 48)) 0

def fracOfDigits (ds : List Char) : ℚ :=
  (natOfDigits ds : ℚ) / ((10 : ℚ) ^ ds.length)

/-- `re.search(r"(\d+(?:\.\d+)?)", content)` followed by `float(...)`: the
leftmost maximal digit run, with an optional fractional part. -/
def findNumber : List Char → Option ℚ
  | [] => none
  | c :: rest =>
      if c.isDigit then
        let ds := List.takeWhile Char.isDigit (c :: rest)
        let after := List.dropWhile Char.isDigit (c :: rest)
        match after with
        | '.' :: r2 =>
            let fs := r2.takeWhile Char.isDigit
            if fs.isEmpty then some (natOfDigits ds : ℚ)
            else some ((natOfDigits ds : ℚ) + fracOfDigits fs)
        | _ => some (natOfDigits ds : ℚ)
      else findNumber rest

/-- `OllamaRerankerProvider._parse_score`: first number in the model output,
clamped to `[0, 10]`; `0.0` when there is none. -/
def parse_score (content : String) : ℚ :=
  match findNumber content.data with
  | some s => min (max s 0) 10
  | none => 0

/-- `OllamaRerankerProvider._score_document`: any request error yields
`(doc_index, 0.0)` instead of raising; a response is parsed with
`parse_score`.  (Prompt construction and the 2000-character document
truncation only shape the request and are absorbed into `resp`.) -/
def score_document (resp : OllamaResponse) (doc_index : ℕ) : ℕ × ℚ :=
  match resp with
  | .failure => (doc_index, 0)
  | .content s => (doc_index, parse_score s)

/-- The `asyncio.gather` result: one `(index, score)` pair per document, in
index order (gather preserves task order). -/
def scoredDocs (responses : ℕ → OllamaResponse) (documents : List String) :
    List (ℕ × ℚ) :=
  (List.range documents.length).map (fun i => score_document (responses i) i)

/-- `OllamaRerankerProvider.rerank`: empty documents short-circuit; otherwise
score everything, sort by score descending (stable), take `top_k`. -/
def rerank (responses : ℕ → OllamaResponse) (documents : List String)
    (top_k : ℕ) : List (ℕ × ℚ) :=
  if documents.isEmpty then []
  else (List.insertionSort sndGe (scoredDocs responses documents)).take top_k

/-! ## Concrete inputs used by the scenario claims -/

def resA : SearchResult :=
  { text := "text A", metadata := [("source", "a.txt")], score := 9/10,
    chunk_id := "A" }

def resB : SearchResult :=
  { text := "text B", metadata := [("source", "b.txt")], score := 8/10,
    chunk_id := "B" }

def resC : SearchResult :=
  { text := "text C", metadata := [("source", "c.txt")], score := 7/10,
    chunk_id := "C" }

/-- Valid persisted line for `/p1`. -/
def lineP1 : JsonLine :=
  .valid (.obj [("folder_path", .str "/p1"),
                ("chunk_count", .num 10),
                ("last_indexed", .str "2024-01-01T00:00:00+00:00"),
                ("chunk_ids", .arr [.str "c1", .str "c2"])])

/-- A line on which `json.loads` raises. -/
def lineBad : JsonLine := .malformed

/-- A parsed line with no `chunk_count` key (`KeyError`, skipped). -/
def lineMissing : JsonLine :=
  .valid (.obj [("folder_path", .str "/p3"),
                ("last_indexed", .str "2024-01-02T00:00:00+00:00"),
                ("chunk_ids", .arr [])])

/-- Valid persisted line for `/p2`. -/
def lineP2 : JsonLine :=
  .valid (.obj [("folder_path", .str "/p2"),
                ("chunk_count", .num 20),
                ("last_indexed", .str "2024-01-03T00:00:00+00:00"),
                ("chunk_ids", .arr [.str "c3"])])

def recP1 : FolderRecord :=
  { folder_path := "/p1", chunk_count := 10,
    last_indexed := "2024-01-01T00:00:00+00:00", chunk_ids := ["c1", "c2"] }

def recP2 : FolderRecord :=
  { folder_path := "/p2", chunk_count := 20,
    last_indexed := "2024-01-03T00:00:00+00:00", chunk_ids := ["c3"] }

/-- Sample reranking inputs in the shape of the unit tests' fixtures. -/
def qr0 : QueryResult :=
  { text := "Document 0 content", source := "doc0.txt", score := 1,
    vector_score := some 1, bm25_score := some (8/10), chunk_id := "chunk_0",
    rerank_score := none, original_rank := none }

def qr1 : QueryResult :=
  { text := "Document 1 content", source := "doc1.txt", score := 9/10,
    vector_score := some (9/10), bm25_score := none, chunk_id := "chunk_1",
    rerank_score := none, original_rank := none }

def qr2 : QueryResult :=
  { text := "Document 2 content", source := "doc2.txt", score := 8/10,
    vector_score := some (8/10), bm25_score := some (6/10),
    chunk_id := "chunk_2", rerank_score := none, original_rank := none }

/-- A deletion environment with one running job for `/f`. -/
def envC2 : DeleteEnv :=
  { resolve := fun s => s
    running := 1
    runningJobPath := some "/f"
    cache := [("/f", { folder_path := "/f", chunk_count := 1,
                       last_indexed := "t", chunk_ids := ["c1"] })]
    deleteByIdsResult := fun _ => .ok 1
    deleteByMetadataResult := fun _ => .ok 0 }

/-! # Theorems -/

/-- C9: for a folder path whose normalized form is absent from the registry,
`remove_folder` returns `None`, leaves the cache unchanged, and performs no
persistence write. -/
theorem remove_folder_absent_noop (resolve : String → String)
    (cache : List (String × FolderRecord)) (p : String)
    (h : pyGet cache (resolve p) = none) :
    remove_folder resolve cache p = (none, cache, false) := by
  simp [remove_folder, h]

/-- Witness for C9 at a concrete input. -/
theorem remove_folder_absent_noop_witness :
    pyGet ([] : List (String × FolderRecord)) ((fun s => s) "/x") = none ∧
    remove_folder (fun s => s) [] "/x" = (none, [], false) :=
  ⟨rfl, remove_folder_absent_noop (fun s => s) [] "/x" rfl⟩

/-- C2: when the queue reports a nonzero running count and the running job's
normalized folder path equals the normalized delete target, the endpoint
returns Conflict (HTTP 409), makes no storage-backend delete call, and leaves
the registry cache untouched. -/
theorem delete_conflict_blocks_storage (env : DeleteEnv) (p jp : String)
    (hrun : 0 < env.running) (hjob : env.runningJobPath = some jp)
    (hpath : env.resolve jp = env.resolve p) :
    remove_folder_endpoint env p =
      (.conflict (env.resolve p), [], env.cache) := by
  simp [remove_folder_endpoint, hrun, hjob, hpath]

/-- Witness for C2 at a concrete environment. -/
theorem delete_conflict_blocks_storage_witness :
    0 < envC2.running ∧ envC2.runningJobPath = some "/f" ∧
    envC2.resolve "/f" = envC2.resolve "/f" ∧
    remove_folder_endpoint envC2 "/f" =
      (.conflict (envC2.resolve "/f"), [], envC2.cache) :=
  ⟨Nat.zero_lt_one, rfl, rfl,
    delete_conflict_blocks_storage envC2 "/f" "/f" Nat.zero_lt_one rfl rfl⟩

/-- C4: if provider acquisition throws, or the provider is unavailable, or
scoring throws, `rerank_results` returns exactly the first `top_k` inputs in
order with all fields untouched (in particular no `rerank_score` is set), and
no error propagates (the function is total). -/
theorem rerank_fallback_returns_take (results : List QueryResult)
    (outcome : RerankerOutcome) (top_k : ℕ) (hne : results ≠ [])
    (hfail : outcome.isFailure = true) :
    rerank_results results outcome top_k = results.take top_k ∧
    ((∀ r ∈ results, r.rerank_score = none) →
      ∀ r ∈ rerank_results results outcome top_k, r.rerank_score = none) := by
  have hemp : results.isEmpty = false := by
    simpa [List.isEmpty_iff] using hne
  have heq : rerank_results results outcome top_k = results.take top_k := by
    cases outcome <;>
      simp_all [rerank_results, RerankerOutcome.isFailure]
  refine ⟨heq, fun hall r hr => ?_⟩
  rw [heq] at hr
  exact hall r (List.mem_of_mem_take hr)

/-- Witness for C4 at a concrete input. -/
theorem rerank_fallback_returns_take_witness :
    ([qr0, qr1, qr2] : List QueryResult) ≠ [] ∧
    RerankerOutcome.acquisitionError.isFailure = true ∧
    (rerank_results [qr0, qr1, qr2] .acquisitionError 2 =
        [qr0, qr1, qr2].take 2 ∧
      ((∀ r ∈ [qr0, qr1, qr2], r.rerank_score = none) →
        ∀ r ∈ rerank_results [qr0, qr1, qr2] .acquisitionError 2,
          r.rerank_score = none)) :=
  ⟨by simp, rfl,
    rerank_fallback_returns_take [qr0, qr1, qr2] .acquisitionError 2
      (by simp) rfl⟩

/-- C1 counterexample: at the claim's own input, the code's raw accumulated
score for B is `0.5/61 + 0.5/60 = 121/7320` (B sits at 0-indexed rank 1 of
`vector_results`, so its vector-side addend is `0.5/(1+60)`), not the claimed
`0.5/60 + 0.5/60`. -/
theorem rrf_concrete_scenario_cex :
    pyGet (fuseScores [resA, resB] [resB, resC] (1/2) (1/2) 60) "B" =
      some (121/7320) ∧
    ¬ ((121 : ℚ)/7320 = 1/2/60 + 1/2/60) := by
  constructor
  · simp only [fuseScores, rrfAccum, resA, resB, resC]
    simp +decide only [pyInsert, pyContains, pyReplace, pyGetD, pyGet]
    norm_num
  · norm_num

/-- C1 (amended): with `vector_results = [A, B]`, `keyword_results = [B, C]`,
`rrf_k = 60` and both weights `0.5`, the raw accumulated scores are
`A = 0.5/60 = 1/120`, `B = 0.5/61 + 0.5/60 = 121/7320`, `C = 0.5/61 = 1/122`;
after dividing by the maximum (B's), the normalized scores are
`A = 61/121 ≈ 0.504`, `B = 1`, `C = 60/121 ≈ 0.496`, and the output order is
`[B, A, C]`. -/
theorem rrf_concrete_scenario :
    fuseScores [resA, resB] [resB, resC] (1/2) (1/2) 60 =
      [("A", 1/120), ("B", 121/7320), ("C", 1/122)] ∧
    rrf_fuse [resA, resB] [resB, resC] 10 (1/2) (1/2) 60 =
      [{ text := "text B", metadata := [("source", "b.txt")], score := 1,
         chunk_id := "B" },
       { text := "text A", metadata := [("source", "a.txt")], score := 61/121,
         chunk_id := "A" },
       { text := "text C", metadata := [("source", "c.txt")], score := 60/121,
         chunk_id := "C" }] := by
  constructor
  · simp only [fuseScores, rrfAccum, resA, resB, resC]
    simp +decide only [pyInsert, pyContains, pyReplace, pyGetD, pyGet]
    norm_num
  · simp only [rrf_fuse, fuseScores, rrfAccum, buildResultMap, vectorMapFold,
      keywordMapFold, resA, resB, resC]
    simp +decide only [pyInsert, pyContains, pyReplace, pyGetD, pyGet]
    norm_num [dictMax, List.insertionSort, List.orderedInsert, sndGe,
      defaultSearchResult]
    simp +decide

/-- C8: a persisted file with a valid line for `/p1`, a malformed-JSON line,
a line missing `chunk_count`, and a valid line for `/p2` loads without error
into exactly the two records for `/p1` and `/p2`; `list()` returns them
sorted.  Every corrupt line is skipped, never aborting the load. -/
theorem registry_corrupt_line_skip :
    (load_jsonl [lineP1, lineBad, lineMissing, lineP2]).length = 2 ∧
    list_folders (load_jsonl [lineP1, lineBad, lineMissing, lineP2]) =
      [recP1, recP2] :=
  ⟨rfl, rfl⟩
theorem filterMap_getElem_all_some {α β : Type _} (f : α → Option β)
    (l : List α) (hall : ∀ a ∈ l, (f a).isSome) (j : ℕ) :
    (l.filterMap f)[j]? = l[j]?.bind f := by
  induction l generalizing j with
  | nil => simp
  | cons a t ih =>
    obtain ⟨b, hb⟩ := Option.isSome_iff_exists.mp (hall a (by simp))
    cases j with
    | zero => simp [List.filterMap_cons, hb]
    | succ k =>
      simp [List.filterMap_cons, hb,
        ih (fun x hx => hall x (List.mem_cons_of_mem a hx))]

theorem length_filterMap_all_some {α β : Type _} (f : α → Option β)
    (l : List α) (hall : ∀ a ∈ l, (f a).isSome) :
    (l.filterMap f).length = l.length := by
  induction l with
  | nil => simp
  | cons a t ih =>
    obtain ⟨b, hb⟩ := Option.isSome_iff_exists.mp (hall a (by simp))
    simp [List.filterMap_cons, hb,
      ih (fun x hx => hall x (List.mem_cons_of_mem a hx))]

/-- C6: after a successful rerank, the output at each position `j` comes from
the provider's `j`-th returned pair `(i, s)` (truncated to `top_k`): it
preserves `text`, `source`/metadata, `score`, `vector_score` and `bm25_score`
from `results[i]`, sets `rerank_score := s` and `original_rank := i + 1`. -/
theorem rerank_success_preserves_fields (results : List QueryResult)
    (pairs : List (ℕ × ℚ)) (top_k : ℕ) (hne : results ≠ [])
    (hvalid : ∀ pr ∈ pairs, pr.1 < results.length) :
    (rerank_results results (.success pairs) top_k).length =
      min top_k pairs.length ∧
    ∀ j : ℕ, ∀ pr : ℕ × ℚ, (pairs.take top_k)[j]? = some pr →
      ∃ orig r : QueryResult, results[pr.1]? = some orig ∧
        (rerank_results results (.success pairs) top_k)[j]? = some r ∧
        r.text = orig.text ∧ r.source = orig.source ∧ r.score = orig.score ∧
        r.vector_score = orig.vector_score ∧
        r.bm25_score = orig.bm25_score ∧ r.chunk_id = orig.chunk_id ∧
        r.rerank_score = some pr.2 ∧ r.original_rank = some (pr.1 + 1) := by
  have hemp : results.isEmpty = false := by simpa [List.isEmpty_iff] using hne
  have hdef : rerank_results results (.success pairs) top_k =
      (pairs.take top_k).filterMap (fun pr =>
        (results[pr.1]?).map (fun orig =>
          { orig with
              rerank_score := some pr.2
              original_rank := some (pr.1 + 1) })) := by
    simp [rerank_results, hemp]
  have hall : ∀ pr ∈ pairs.take top_k,
      ((results[pr.1]?).map (fun orig =>
        ({ orig with
            rerank_score := some pr.2
            original_rank := some (pr.1 + 1) } : QueryResult))).isSome := by
    intro pr hpr
    have hlt := hvalid pr (List.mem_of_mem_take hpr)
    simp [List.getElem?_eq_getElem hlt]
  constructor
  · rw [hdef, length_filterMap_all_some _ _ hall, List.length_take]
  · intro j pr hj
    have hm : pr ∈ pairs.take top_k := by
      exact List.getElem?_mem hj
    have hlt := hvalid pr (List.mem_of_mem_take hm)
    refine ⟨results[pr.1],
      { results[pr.1] with
          rerank_score := some pr.2
          original_rank := some (pr.1 + 1) },
      List.getElem?_eq_getElem hlt, ?_, by simp⟩
    rw [hdef, filterMap_getElem_all_some _ _ hall j, hj]
    simp [List.getElem?_eq_getElem hlt]

/-- Witness for C6 at a concrete input. -/
theorem rerank_success_preserves_fields_witness :
    ([qr0, qr1, qr2] : List QueryResult) ≠ [] ∧
    (∀ pr ∈ [((2 : ℕ), (19 : ℚ)/20), ((0 : ℕ), (3 : ℚ)/4)],
      pr.1 < ([qr0, qr1, qr2] : List QueryResult).length) ∧
    ((rerank_results [qr0, qr1, qr2]
        (.success [(2, 19/20), (0, 3/4)]) 2).length =
      min 2 ([((2 : ℕ), (19 : ℚ)/20), ((0 : ℕ), (3 : ℚ)/4)]).length ∧
    ∀ j : ℕ, ∀ pr : ℕ × ℚ,
      ([((2 : ℕ), (19 : ℚ)/20), ((0 : ℕ), (3 : ℚ)/4)].take 2)[j]? = some pr →
      ∃ orig r : QueryResult,
        ([qr0, qr1, qr2] : List QueryResult)[pr.1]? = some orig ∧
        (rerank_results [qr0, qr1, qr2]
          (.success [(2, 19/20), (0, 3/4)]) 2)[j]? = some r ∧
        r.text = orig.text ∧ r.source = orig.source ∧ r.score = orig.score ∧
        r.vector_score = orig.vector_score ∧
        r.bm25_score = orig.bm25_score ∧ r.chunk_id = orig.chunk_id ∧
        r.rerank_score = some pr.2 ∧ r.original_rank = some (pr.1 + 1)) :=
  ⟨by simp,
   by intro pr hpr; simp at hpr; rcases hpr with h | h <;> simp [h],
   rerank_success_preserves_fields [qr0, qr1, qr2] [(2, 19/20), (0, 3/4)] 2
     (by simp)
     (by intro pr hpr; simp at hpr; rcases hpr with h | h <;> simp [h])⟩

theorem pyKeys_cons {β : Type _} (p : String × β) (rest : List (String × β)) :
    pyKeys (p :: rest) = p.1 :: pyKeys rest := rfl

theorem pyContains_iff_mem {β : Type _} (m : List (String × β)) (k : String) :
    pyContains m k = true ↔ k ∈ pyKeys m := by
  induction m with
  | nil => simp [pyContains, pyKeys]
  | cons p rest ih =>
    by_cases hk : p.1 = k
    · simp [pyContains, pyKeys_cons, hk]
    · have hk' : ¬ k = p.1 := fun h => hk h.symm
      simp [pyContains, pyKeys_cons, hk, hk', ih]

theorem pyGet_pyReplace_self {β : Type _} (m : List (String × β)) (k : String)
    (v : β) (h : pyContains m k = true) :
    pyGet (pyReplace m k v) k = some v := by
  induction m with
  | nil => simp [pyContains] at h
  | cons p rest ih =>
    by_cases hk : p.1 = k
    · simp [pyReplace, hk, pyGet]
    · simp [pyContains, hk] at h
      simp [pyReplace, hk, pyGet, ih h]

theorem pyGet_append_single {β : Type _} (m : List (String × β)) (k : String)
    (v : β) (h : pyContains m k = false) :
    pyGet (m ++ [(k, v)]) k = some v := by
  induction m with
  | nil => simp [pyGet]
  | cons p rest ih =>
    simp only [pyContains, Bool.or_eq_false_iff, decide_eq_false_iff_not] at h
    simp [pyGet, h.1, ih (by simp [pyContains, h.2])]

theorem pyGet_pyInsert_self {β : Type _} (m : List (String × β)) (k : String)
    (v : β) : pyGet (pyInsert m k v) k = some v := by
  unfold pyInsert
  by_cases h : pyContains m k = true
  · simp [h, pyGet_pyReplace_self m k v h]
  · have h' : pyContains m k = false := by simpa using h
    simp [h', pyGet_append_single m k v h']

theorem pyReplace_forall_pairs {β : Type _} (P : String × β → Prop)
    (m : List (String × β)) (k : String) (v : β)
    (hm : ∀ p ∈ m, P p) (hv : P (k, v)) : ∀ p ∈ pyReplace m k v, P p := by
  induction m with
  | nil => simp [pyReplace]
  | cons q rest ih =>
    intro p hp
    by_cases hk : q.1 = k
    · simp only [pyReplace, hk, if_true] at hp
      rcases List.mem_cons.mp hp with h | h
      · exact h ▸ hv
      · exact ih (fun x hx => hm x (List.mem_cons_of_mem q hx)) p h
    · simp only [pyReplace, hk, if_false] at hp
      rcases List.mem_cons.mp hp with h | h
      · exact h ▸ hm q (List.mem_cons_self q rest)
      · exact ih (fun x hx => hm x (List.mem_cons_of_mem q hx)) p h

theorem pyInsert_forall_pairs {β : Type _} (P : String × β → Prop)
    (m : List (String × β)) (k : String) (v : β)
    (hm : ∀ p ∈ m, P p) (hv : P (k, v)) : ∀ p ∈ pyInsert m k v, P p := by
  intro p hp
  unfold pyInsert at hp
  by_cases h : pyContains m k = true
  · simp only [h, if_true] at hp
    exact pyReplace_forall_pairs P m k v hm hv p hp
  · simp only [h, if_false] at hp
    rcases List.mem_append.mp hp with h1 | h1
    · exact hm p h1
    · rcases List.mem_singleton.mp h1 with rfl
      exact hv

theorem pyKeys_pyReplace {β : Type _} (m : List (String × β)) (k : String)
    (v : β) : pyKeys (pyReplace m k v) = pyKeys m := by
  induction m with
  | nil => simp [pyReplace]
  | cons q rest ih =>
    by_cases hk : q.1 = k
    · simp [pyReplace, hk, pyKeys_cons, ih]
    · simp [pyReplace, hk, pyKeys_cons, ih]

theorem pyKeys_pyInsert_nodup {β : Type _} (m : List (String × β))
    (k : String) (v : β) (h : (pyKeys m).Nodup) :
    (pyKeys (pyInsert m k v)).Nodup := by
  unfold pyInsert
  by_cases hc : pyContains m k = true
  · simpa [hc, pyKeys_pyReplace] using h
  · have hk : k ∉ pyKeys m := fun hmem =>
      hc ((pyContains_iff_mem m k).mpr hmem)
    have hkeys : pyKeys (m ++ [(k, v)]) = pyKeys m ++ [k] := by
      simp [pyKeys]
    simp [hc, hkeys, List.nodup_append, hk, h]

theorem cacheWF_pyInsert (cache : List (String × FolderRecord)) (k : String)
    (r : FolderRecord) (hwf : CacheWF cache) (hr : r.folder_path = k) :
    CacheWF (pyInsert cache k r) :=
  ⟨pyKeys_pyInsert_nodup cache k r hwf.1,
   pyInsert_forall_pairs (fun q => q.2.folder_path = q.1) cache k r hwf.2
     (by simpa using hr)⟩

theorem strListOfJson_map_str (ids : List String) :
    strListOfJson (ids.map Json.str) = some ids := by
  induction ids with
  | nil => simp [strListOfJson]
  | cons s rest ih => simp [strListOfJson, ih]

theorem recordOfJson_jsonOfRecord (r : FolderRecord) :
    recordOfJson (jsonOfRecord r) = some r := by
  simp +decide [recordOfJson, jsonOfRecord, jsonLookup, pyGet, asStr, asInt,
    asStrList, strListOfJson_map_str]

theorem foldl_pyInsert_append (cache : List (String × FolderRecord)) :
    ∀ acc : List (String × FolderRecord),
    (pyKeys (acc ++ cache)).Nodup →
    (∀ q ∈ cache, q.2.folder_path = q.1) →
    cache.foldl (fun recs q => pyInsert recs q.2.folder_path q.2) acc =
      acc ++ cache := by
  induction cache with
  | nil => intro acc _ _; simp
  | cons q rest ih =>
    intro acc hnd hwf
    have hq : q.2.folder_path = q.1 := hwf q (List.mem_cons_self q rest)
    have hkeys : pyKeys (acc ++ q :: rest) =
        pyKeys acc ++ q.1 :: pyKeys rest := by
      simp [pyKeys]
    have hknotin : q.1 ∉ pyKeys acc := by
      rw [hkeys] at hnd
      have := (List.nodup_append.mp hnd).2.2
      intro hmem
      exact this hmem (List.mem_cons_self q.1 (pyKeys rest))
    have hcont : pyContains acc q.1 = false := by
      rcases h : pyContains acc q.1 with _ | _
      · rfl
      · exact absurd ((pyContains_iff_mem acc q.1).mp h) hknotin
    have hstep : pyInsert acc q.2.folder_path q.2 = acc ++ [q] := by
      rw [hq]
      unfold pyInsert
      simp [hcont]
    rw [List.foldl_cons, hstep]
    have hassoc : (acc ++ [q]) ++ rest = acc ++ q :: rest := by
      simp
    have := ih (acc ++ [q]) (by rw [hassoc]; exact hnd)
      (fun x hx => hwf x (List.mem_cons_of_mem q hx))
    rw [this, hassoc]

theorem load_write_roundtrip (cache : List (String × FolderRecord))
    (hwf : CacheWF cache) : load_jsonl (write_jsonl cache) = cache := by
  have h1 : load_jsonl (write_jsonl cache) =
      cache.foldl (fun recs q => pyInsert recs q.2.folder_path q.2) [] := by
    simp only [load_jsonl, write_jsonl, List.foldl_map,
      recordOfJson_jsonOfRecord]
  rw [h1]
  exact foldl_pyInsert_append cache [] (by simpa using hwf.1) hwf.2

/-- C3: `add_folder(p, n, ids)` followed by `get_folder(p)` returns the new
record, whose `chunk_count` is `n` and `chunk_ids` is `ids`; and a fresh
registry instance loading the persisted file (`load_jsonl` of `write_jsonl`)
yields the same record from `get_folder(p)`. -/
theorem folder_registry_roundtrip (resolve : String → String) (now : String)
    (cache : List (String × FolderRecord)) (p : String) (n : Int)
    (ids : List String) (hwf : CacheWF cache) :
    (add_folder resolve now cache p n ids).1.chunk_count = n ∧
    (add_folder resolve now cache p n ids).1.chunk_ids = ids ∧
    get_folder resolve (add_folder resolve now cache p n ids).2 p =
      some (add_folder resolve now cache p n ids).1 ∧
    get_folder resolve
        (load_jsonl (write_jsonl (add_folder resolve now cache p n ids).2)) p =
      some (add_folder resolve now cache p n ids).1 := by
  have hwf2 : CacheWF (add_folder resolve now cache p n ids).2 :=
    cacheWF_pyInsert cache (resolve p) _ hwf rfl
  refine ⟨rfl, rfl, ?_, ?_⟩
  · exact pyGet_pyInsert_self cache (resolve p) _
  · rw [show get_folder resolve
        (load_jsonl (write_jsonl (add_folder resolve now cache p n ids).2)) p =
        get_folder resolve (add_folder resolve now cache p n ids).2 p from by
      rw [load_write_roundtrip _ hwf2]]
    exact pyGet_pyInsert_self cache (resolve p) _

/-- Witness for C3 at a concrete input. -/
theorem folder_registry_roundtrip_witness :
    CacheWF [] ∧
    ((add_folder (fun s => s) "t0" [] "/a" 2 ["c1", "c2"]).1.chunk_count = 2 ∧
     (add_folder (fun s => s) "t0" [] "/a" 2 ["c1", "c2"]).1.chunk_ids =
       ["c1", "c2"] ∧
     get_folder (fun s => s)
         (add_folder (fun s => s) "t0" [] "/a" 2 ["c1", "c2"]).2 "/a" =
       some (add_folder (fun s => s) "t0" [] "/a" 2 ["c1", "c2"]).1 ∧
     get_folder (fun s => s)
         (load_jsonl (write_jsonl
           (add_folder (fun s => s) "t0" [] "/a" 2 ["c1", "c2"]).2)) "/a" =
       some (add_folder (fun s => s) "t0" [] "/a" 2 ["c1", "c2"]).1) :=
  ⟨⟨List.nodup_nil, by simp⟩,
   folder_registry_roundtrip (fun s => s) "t0" [] "/a" 2 ["c1", "c2"]
     ⟨List.nodup_nil, by simp⟩⟩

/-- C7 counterexample: `add_folder` stores `chunk_count` and `chunk_ids`
verbatim without any consistency check; with `chunk_count = 5` and two chunk
ids — arguments the repository's own test-suite passes — the produced (and
persisted) record violates `len(chunk_ids) == chunk_count`. -/
theorem chunk_count_consistency_cex :
    ¬ ((add_folder (fun s => s) "t0" [] "/a" 5 ["c1", "c2"]).1.chunk_count =
       ((add_folder (fun s => s) "t0" [] "/a" 5
          ["c1", "c2"]).1.chunk_ids.length : Int)) := by
  decide

/-- C7 (amended): the registry does not enforce the invariant; it stores the
caller's `chunk_count` and `chunk_ids` verbatim.  Whenever the caller supplies
`chunk_count = len(chunk_ids)` and every cached record already satisfies the
invariant, the record produced by `add_folder` satisfies it, every record in
the updated cache satisfies it, and every line written to the persisted file
serializes a record satisfying it. -/
theorem chunk_count_consistency_preserved (resolve : String → String)
    (now : String) (cache : List (String × FolderRecord)) (p : String)
    (n : Int) (ids : List String) (hn : n = (ids.length : Int))
    (hcache : ∀ q ∈ cache, q.2.chunk_count = (q.2.chunk_ids.length : Int)) :
    (add_folder resolve now cache p n ids).1.chunk_count =
      ((add_folder resolve now cache p n ids).1.chunk_ids.length : Int) ∧
    (∀ q ∈ (add_folder resolve now cache p n ids).2,
      q.2.chunk_count = (q.2.chunk_ids.length : Int)) ∧
    ∀ line ∈ write_jsonl (add_folder resolve now cache p n ids).2,
      ∃ r : FolderRecord, line = .valid (jsonOfRecord r) ∧
        r.chunk_count = (r.chunk_ids.length : Int) := by
  have hrec : (add_folder resolve now cache p n ids).1.chunk_count =
      ((add_folder resolve now cache p n ids).1.chunk_ids.length : Int) := by
    simpa [add_folder] using hn
  have hadd2 : (add_folder resolve now cache p n ids).2 =
      pyInsert cache (resolve p)
        { folder_path := resolve p, chunk_count := n,
          last_indexed := now, chunk_ids := ids } := rfl
  have hall : ∀ q ∈ (add_folder resolve now cache p n ids).2,
      q.2.chunk_count = (q.2.chunk_ids.length : Int) := by
    rw [hadd2]
    exact pyInsert_forall_pairs
      (fun q => q.2.chunk_count = (q.2.chunk_ids.length : Int))
      cache (resolve p)
      { folder_path := resolve p, chunk_count := n,
        last_indexed := now, chunk_ids := ids }
      hcache (by simpa using hn)
  refine ⟨hrec, hall, ?_⟩
  intro line hline
  rcases List.mem_map.mp hline with ⟨q, hq, rfl⟩
  exact ⟨q.2, rfl, hall q hq⟩

/-- Witness for C7's amended theorem at a concrete input. -/
theorem chunk_count_consistency_preserved_witness :
    (2 : Int) = ((["c1", "c2"] : List String).length : Int) ∧
    (∀ q ∈ ([] : List (String × FolderRecord)),
      q.2.chunk_count = (q.2.chunk_ids.length : Int)) ∧
    ((add_folder (fun s => s) "t0" [] "/b" 2 ["c1", "c2"]).1.chunk_count =
      ((add_folder (fun s => s) "t0" [] "/b" 2
         ["c1", "c2"]).1.chunk_ids.length : Int) ∧
     (∀ q ∈ (add_folder (fun s => s) "t0" [] "/b" 2 ["c1", "c2"]).2,
       q.2.chunk_count = (q.2.chunk_ids.length : Int)) ∧
     ∀ line ∈ write_jsonl (add_folder (fun s => s) "t0" [] "/b" 2
         ["c1", "c2"]).2,
       ∃ r : FolderRecord, line = .valid (jsonOfRecord r) ∧
         r.chunk_count = (r.chunk_ids.length : Int)) :=
  ⟨by simp, by simp,
   chunk_count_consistency_preserved (fun s => s) "t0" [] "/b" 2 ["c1", "c2"]
     (by simp) (by simp)⟩

theorem score_document_fst (resp : OllamaResponse) (i : ℕ) :
    (score_document resp i).1 = i := by
  cases resp <;> rfl

theorem parse_score_bounds (s : String) :
    0 ≤ parse_score s ∧ parse_score s ≤ 10 := by
  unfold parse_score
  cases h : findNumber s.data with
  | none => norm_num
  | some q =>
    constructor
    · exact le_min (le_trans (le_max_right q 0) (le_refl _)) (by norm_num)
    · exact min_le_right _ _

theorem score_document_bounds (resp : OllamaResponse) (i : ℕ) :
    0 ≤ (score_document resp i).2 ∧ (score_document resp i).2 ≤ 10 := by
  cases resp with
  | failure => simp [score_document]
  | content s => simpa [score_document] using parse_score_bounds s

theorem length_scoredDocs (responses : ℕ → OllamaResponse)
    (documents : List String) :
    (scoredDocs responses documents).length = documents.length := by
  simp [scoredDocs]

theorem map_fst_scoredDocs (responses : ℕ → OllamaResponse)
    (documents : List String) :
    (scoredDocs responses documents).map Prod.fst =
      List.range documents.length := by
  rw [scoredDocs, List.map_map]
  have h : (Prod.fst ∘ fun i => score_document (responses i) i) =
      fun i : ℕ => i := by
    funext i
    exact score_document_fst (responses i) i
  rw [h]
  simp

theorem scoredDocs_mem (responses : ℕ → OllamaResponse)
    (documents : List String) (pr : ℕ × ℚ)
    (h : pr ∈ scoredDocs responses documents) :
    pr.1 < documents.length ∧ 0 ≤ pr.2 ∧ pr.2 ≤ 10 := by
  rcases List.mem_map.mp h with ⟨i, hi, rfl⟩
  have hi' := List.mem_range.mp hi
  exact ⟨by rw [score_document_fst]; exact hi',
    (score_document_bounds _ _).1, (score_document_bounds _ _).2⟩

/-- C10: `rerank` returns exactly `min(top_k, len(documents))` pairs, sorted
by score descending, each index a distinct valid index into `documents`, each
score in `[0, 10]`; a failed scoring call contributes `(index, 0.0)` to the
gathered scores instead of raising, so no document is dropped from scoring. -/
theorem ollama_rerank_contract (responses : ℕ → OllamaResponse)
    (documents : List String) (top_k : ℕ) :
    (rerank responses documents top_k).length = min top_k documents.length ∧
    List.Pairwise (fun a b : ℕ × ℚ => b.2 ≤ a.2)
      (rerank responses documents top_k) ∧
    (∀ pr ∈ rerank responses documents top_k,
      pr.1 < documents.length ∧ 0 ≤ pr.2 ∧ pr.2 ≤ 10) ∧
    ((rerank responses documents top_k).map Prod.fst).Nodup ∧
    ∀ i : ℕ, i < documents.length → responses i = .failure →
      (i, (0 : ℚ)) ∈ scoredDocs responses documents := by
  have hmemdocs : ∀ i : ℕ, i < documents.length → responses i = .failure →
      (i, (0 : ℚ)) ∈ scoredDocs responses documents := by
    intro i hi hf
    refine List.mem_map.mpr ⟨i, List.mem_range.mpr hi, ?_⟩
    rw [hf]
    rfl
  by_cases hemp : documents.isEmpty
  · have hnil : documents = [] := List.isEmpty_iff.mp hemp
    subst hnil
    simp [rerank]
  · have hdef : rerank responses documents top_k =
        (List.insertionSort sndGe (scoredDocs responses documents)).take
          top_k := by
      simp [rerank, hemp]
    have hsorted : List.Pairwise sndGe
        (List.insertionSort sndGe (scoredDocs responses documents)) :=
      List.sorted_insertionSort sndGe (scoredDocs responses documents)
    have hperm : (List.insertionSort sndGe
        (scoredDocs responses documents)).Perm
        (scoredDocs responses documents) :=
      List.perm_insertionSort sndGe (scoredDocs responses documents)
    have hsub : (rerank responses documents top_k).Sublist
        (List.insertionSort sndGe (scoredDocs responses documents)) := by
      rw [hdef]
      exact List.take_sublist _ _
    refine ⟨?_, ?_, ?_, ?_, hmemdocs⟩
    · rw [hdef, List.length_take, List.length_insertionSort,
        length_scoredDocs]
    · exact List.Pairwise.sublist hsub hsorted
    · intro pr hpr
      exact scoredDocs_mem responses documents pr
        (hperm.mem_iff.mp (hsub.mem hpr))
    · have hnodup : ((List.insertionSort sndGe
          (scoredDocs responses documents)).map Prod.fst).Nodup := by
        have h1 : ((scoredDocs responses documents).map Prod.fst).Nodup := by
          rw [map_fst_scoredDocs]
          exact List.nodup_range documents.length
        exact ((hperm.map Prod.fst).symm.nodup h1)
      exact (hsub.map Prod.fst).nodup hnodup

/-- Witness for C10's conclusion at a concrete input (the theorem itself has
no hypotheses; this instantiates it). -/
theorem ollama_rerank_contract_witness :
    (rerank (fun _ => .failure) ["d0", "d1"] 1).length = min 1 2 ∧
    List.Pairwise (fun a b : ℕ × ℚ => b.2 ≤ a.2)
      (rerank (fun _ => .failure) ["d0", "d1"] 1) ∧
    (∀ pr ∈ rerank (fun _ => .failure) ["d0", "d1"] 1,
      pr.1 < (["d0", "d1"] : List String).length ∧ 0 ≤ pr.2 ∧ pr.2 ≤ 10) ∧
    ((rerank (fun _ => .failure) ["d0", "d1"] 1).map Prod.fst).Nodup ∧
    ∀ i : ℕ, i < (["d0", "d1"] : List String).length →
      (fun _ : ℕ => OllamaResponse.failure) i = .failure →
      (i, (0 : ℚ)) ∈ scoredDocs (fun _ => .failure) ["d0", "d1"] :=
  ollama_rerank_contract (fun _ => .failure) ["d0", "d1"] 1

theorem pyGet_mem {β : Type _} (m : List (String × β)) (k : String) (v : β)
    (h : pyGet m k = some v) : (k, v) ∈ m := by
  induction m with
  | nil => simp [pyGet] at h
  | cons p rest ih =>
    by_cases hk : p.1 = k
    · simp only [pyGet, hk, if_true, Option.some.injEq] at h
      subst h
      subst hk
      exact List.mem_cons_self p rest
    · simp only [pyGet, hk, if_false] at h
      exact List.mem_cons_of_mem p (ih h)

theorem pyInsert_ne_nil {β : Type _} (m : List (String × β)) (k : String)
    (v : β) : pyInsert m k v ≠ [] := by
  unfold pyInsert
  by_cases h : pyContains m k = true
  · rw [if_pos h]
    cases m with
    | nil => simp [pyContains] at h
    | cons p rest =>
      by_cases hk : p.1 = k <;> simp [pyReplace, hk]
  · rw [if_neg h]
    simp

theorem rrfAccum_ne_nil (w rrf_k : ℚ) (results : List SearchResult) :
    ∀ (rank : ℕ) (m : List (String × ℚ)), (m ≠ [] ∨ results ≠ []) →
    rrfAccum w rrf_k rank results m ≠ [] := by
  induction results with
  | nil =>
    intro rank m h
    rcases h with h | h
    · simpa [rrfAccum] using h
    · exact absurd rfl h
  | cons r rest ih =>
    intro rank m _
    exact ih (rank + 1) _ (Or.inl (pyInsert_ne_nil _ _ _))

theorem rrfAccum_pos (w rrf_k : ℚ) (hw : 0 < w) (hk : 0 < rrf_k)
    (results : List SearchResult) :
    ∀ (rank : ℕ) (m : List (String × ℚ)), (∀ p ∈ m, 0 < p.2) →
    ∀ p ∈ rrfAccum w rrf_k rank results m, 0 < p.2 := by
  induction results with
  | nil => intro rank m hm; simpa [rrfAccum] using hm
  | cons r rest ih =>
    intro rank m hm
    have hden : 0 < (rank : ℚ) + rrf_k :=
      add_pos_of_nonneg_of_pos (Nat.cast_nonneg rank) hk
    have hterm : 0 < w / ((rank : ℚ) + rrf_k) := div_pos hw hden
    have hbase : 0 ≤ pyGetD m r.chunk_id 0 := by
      unfold pyGetD
      cases h : pyGet m r.chunk_id with
      | none => simp
      | some q =>
        simpa using le_of_lt (hm (r.chunk_id, q) (pyGet_mem m r.chunk_id q h))
    exact ih (rank + 1) _
      (pyInsert_forall_pairs (fun p => 0 < p.2) m r.chunk_id _ hm
        (add_pos_of_nonneg_of_pos hbase hterm))

theorem foldl_max_le_acc {α : Type _} (l : List (α × ℚ)) :
    ∀ b : ℚ, b ≤ l.foldl (fun acc q => max acc q.2) b := by
  induction l with
  | nil => intro b; simp
  | cons q t ih =>
    intro b
    exact le_trans (le_max_left b q.2) (ih (max b q.2))

theorem foldl_max_le_mem {α : Type _} (l : List (α × ℚ)) :
    ∀ (b : ℚ) (p : α × ℚ), p ∈ l → p.2 ≤ l.foldl (fun acc q => max acc q.2) b := by
  induction l with
  | nil => intro b p hp; simp at hp
  | cons q t ih =>
    intro b p hp
    rcases List.mem_cons.mp hp with rfl | hp
    · exact le_trans (le_max_right b p.2) (foldl_max_le_acc t (max b p.2))
    · exact ih (max b q.2) p hp

theorem foldl_max_cases {α : Type _} (l : List (α × ℚ)) :
    ∀ b : ℚ, l.foldl (fun acc q => max acc q.2) b = b ∨
      ∃ p ∈ l, l.foldl (fun acc q => max acc q.2) b = p.2 := by
  induction l with
  | nil => intro b; exact Or.inl rfl
  | cons q t ih =>
    intro b
    rcases ih (max b q.2) with h | ⟨p, hp, h⟩
    · rcases max_choice b q.2 with hm | hm
      · exact Or.inl (by rw [List.foldl_cons, h, hm])
      · exact Or.inr ⟨q, List.mem_cons_self q t, by rw [List.foldl_cons, h, hm]⟩
    · exact Or.inr ⟨p, List.mem_cons_of_mem q hp, by rw [List.foldl_cons, h]⟩

theorem le_dictMax (m : List (String × ℚ)) (p : String × ℚ) (hp : p ∈ m) :
    p.2 ≤ dictMax m := by
  cases m with
  | nil => simp at hp
  | cons q t =>
    rcases List.mem_cons.mp hp with rfl | hp
    · exact foldl_max_le_acc t p.2
    · exact foldl_max_le_mem t q.2 p hp

theorem dictMax_mem (m : List (String × ℚ)) (hne : m ≠ []) :
    ∃ p ∈ m, dictMax m = p.2 := by
  cases m with
  | nil => exact absurd rfl hne
  | cons q t =>
    rcases foldl_max_cases t q.2 with h | ⟨p, hp, h⟩
    · exact ⟨q, List.mem_cons_self q t, h⟩
    · exact ⟨p, List.mem_cons_of_mem q hp, h⟩

theorem dictMax_pos (m : List (String × ℚ)) (hne : m ≠ [])
    (hpos : ∀ p ∈ m, 0 < p.2) : 0 < dictMax m := by
  rcases dictMax_mem m hne with ⟨p, hp, h⟩
  rw [h]
  exact hpos p hp

theorem sort_head_eq_dictMax (scores : List (String × ℚ)) (hne : scores ≠ []) :
    ∃ (h : String × ℚ) (t : List (String × ℚ)),
      List.insertionSort sndGe scores = h :: t ∧ h.2 = dictMax scores := by
  have hperm := List.perm_insertionSort sndGe scores
  have hsorted := List.sorted_insertionSort sndGe scores
  cases hs : List.insertionSort sndGe scores with
  | nil =>
    rw [hs] at hperm
    exact absurd hperm.symm.eq_nil hne
  | cons h t =>
    rw [hs] at hperm hsorted
    refine ⟨h, t, rfl, le_antisymm ?_ ?_⟩
    · exact le_dictMax scores h (hperm.subset (List.mem_cons_self h t))
    · rcases dictMax_mem scores hne with ⟨p, hp, hd⟩
      rw [hd]
      rcases List.mem_cons.mp (hperm.symm.subset hp) with rfl | hpt
      · exact le_refl _
      · exact List.rel_of_sorted_cons hsorted p hpt

/-- C5: for positive weights and `rrf_k` (the defaults are `0.5, 0.5, 60`),
`top_k ≥ 1`, and input lists not both empty, every fused result's score lies
in `(0, 1]` and the first (top) result's score is exactly `1` after
max-normalization. -/
theorem rrf_score_bounds (vector_results keyword_results : List SearchResult)
    (top_k : ℕ) (vw kw rrf_k : ℚ) (hvw : 0 < vw) (hkw : 0 < kw)
    (hk : 0 < rrf_k) (htop : 1 ≤ top_k)
    (hne : vector_results ≠ [] ∨ keyword_results ≠ []) :
    (∀ r ∈ rrf_fuse vector_results keyword_results top_k vw kw rrf_k,
      0 < r.score ∧ r.score ≤ 1) ∧
    ∃ r rest, rrf_fuse vector_results keyword_results top_k vw kw rrf_k =
      r :: rest ∧ r.score = 1 := by
  set scores := fuseScores vector_results keyword_results vw kw rrf_k
    with hscores_def
  have hne_scores : scores ≠ [] := by
    rcases hne with hv | hkw2
    · exact rrfAccum_ne_nil kw rrf_k keyword_results 0 _
        (Or.inl (rrfAccum_ne_nil vw rrf_k vector_results 0 [] (Or.inr hv)))
    · exact rrfAccum_ne_nil kw rrf_k keyword_results 0 _ (Or.inr hkw2)
  have hpos : ∀ p ∈ scores, 0 < p.2 :=
    rrfAccum_pos kw rrf_k hkw hk keyword_results 0 _
      (rrfAccum_pos vw rrf_k hvw hk vector_results 0 [] (by simp))
  have hmaxpos : 0 < dictMax scores := dictMax_pos scores hne_scores hpos
  have hmax_ne : ¬ dictMax scores = 0 := ne_of_gt hmaxpos
  have hif : (if dictMax scores = 0 then (1 : ℚ) else dictMax scores) =
      dictMax scores := if_neg hmax_ne
  have hperm := List.perm_insertionSort sndGe scores
  simp only [rrf_fuse, ← hscores_def, if_neg hne_scores, hif]
  constructor
  · intro r hr
    rcases List.mem_map.mp hr with ⟨p, hp, rfl⟩
    have hpmem : p ∈ scores :=
      hperm.subset (List.mem_of_mem_take hp)
    constructor
    · exact div_pos (hpos p hpmem) hmaxpos
    · exact (div_le_one hmaxpos).mpr (le_dictMax scores p hpmem)
  · rcases sort_head_eq_dictMax scores hne_scores with ⟨h, t, hs, hmax⟩
    cases top_k with
    | zero => exact absurd htop (by simp)
    | succ n =>
      simp only [hs, List.take_succ_cons, List.map_cons]
      exact ⟨_, _, rfl, by dsimp only; rw [hmax]; exact div_self hmax_ne⟩

/-- Witness for C5 at a concrete input. -/
theorem rrf_score_bounds_witness :
    (0 : ℚ) < 1/2 ∧ (0 : ℚ) < 60 ∧ (1 : ℕ) ≤ 1 ∧
    (([resA] : List SearchResult) ≠ [] ∨ ([] : List SearchResult) ≠ []) ∧
    ((∀ r ∈ rrf_fuse [resA] [] 1 (1/2) (1/2) 60,
        0 < r.score ∧ r.score ≤ 1) ∧
     ∃ r rest, rrf_fuse [resA] [] 1 (1/2) (1/2) 60 = r :: rest ∧
       r.score = 1) :=
  ⟨by norm_num, by norm_num, le_refl 1, Or.inl (by simp),
   rrf_score_bounds [resA] [] 1 (1/2) (1/2) 60 (by norm_num) (by norm_num)
     (by norm_num) (le_refl 1) (Or.inl (by simp))⟩
